import Mathlib

/-!
Verification of the ticker-mention extraction and aggregation pipeline of
the reddit-stock-crawler repository.

The definitions below are a shallow embedding of the Python sources
`src/reddit_stock_crawler/etl/reddit_crawler_stock.py` (mention extraction,
daily aggregation, trend alerts) and `script/build_ticker_list.py`
(whitelist cleaning, retry decorator, yfinance verification).

Modelling conventions:
* Text is modelled over ASCII characters: the Python `re` word classes
  (`\b`, `\w`) and `str.upper`/`str.strip` are embedded with their ASCII
  semantics.
* Python sets of strings are modelled as `Finset String`.
* The external `wordfreq` corpus lookup (`zipf_frequency(...) > 4.0`) is an
  external dependency of the repository and is modelled as an oracle
  parameter `w : String → Bool`.
* The SQLite tables are modelled as lists of rows; the conflict targets of
  the upsert statements are modelled explicitly where the schema requires a
  uniqueness constraint.
-/

/-- ASCII word character, the `\w` / `\b` class of the Python `re` module
restricted to ASCII: letters, digits, underscore. -/
def wordChar (c : Char) : Bool :=
  ('A' ≤ c && c ≤ 'Z') || ('a' ≤ c && c ≤ 'z') || ('0' ≤ c && c ≤ '9') || c == '_'

/-- Uppercase ASCII letter, the `[A-Z]` class of `TICKER_RE`. -/
def upperChar (c : Char) : Bool :=
  'A' ≤ c && c ≤ 'Z'

/-- Whether the first character of the remaining input is a word character
(used for the trailing `\b` of `TICKER_RE`; the end of input is a boundary). -/
def headIsWordChar : List Char → Bool
  | [] => false
  | c :: _ => wordChar c

/-- One attempted match of `TICKER_RE = \b\$?([A-Z]{1,5})\b` at the current
position.  `prevIsWord` says whether the character immediately before the
current position is a word character (`false` at the start of the text).
Returns the captured group (the letter run) if the whole pattern matches
here.

The greedy `[A-Z]{1,5}` with the trailing `\b` succeeds exactly when the
maximal uppercase-letter run from the current point has length 1..5 and the
character following the run is not a word character: any shorter prefix of
the run is followed by a letter, so backtracking never helps. -/
def tryTickerMatch (prevIsWord : Bool) : List Char → Option (List Char)
  | [] => none
  | c :: rest =>
    if c == '$' then
      -- leading `\b`: '$' is not a word character, so the boundary holds
      -- iff the previous character is a word character
      if prevIsWord then
        let tok := rest.takeWhile upperChar
        if 1 ≤ tok.length && tok.length ≤ 5 && !headIsWordChar (rest.dropWhile upperChar)
        then some tok else none
      else none
    else if upperChar c && !prevIsWord then
      -- leading `\b`: a letter is a word character, so the boundary holds
      -- iff the previous character is not a word character; `\$?` matches empty
      let tok := c :: rest.takeWhile upperChar
      if tok.length ≤ 5 && !headIsWordChar (rest.dropWhile upperChar)
      then some tok else none
    else none

/-- `TICKER_RE.findall`: scan left to right; after a successful match resume
immediately after it (the last matched character is a letter, hence a word
character), otherwise advance one character.  In both successful branches of
`tryTickerMatch` the input remaining after the match is
`rest.dropWhile upperChar`.

The recursion is structural on a fuel argument so that the function reduces
inside the kernel; every step consumes at least one character, so any fuel
of at least the input length gives the same result
(`findallTickerFuel_irrel`). -/
def findallTickerFuel : Nat → List Char → Bool → List (List Char)
  | 0, _, _ => []
  | _ + 1, [], _ => []
  | fuel + 1, c :: rest, prevW =>
    match tryTickerMatch prevW (c :: rest) with
    | some tok => tok :: findallTickerFuel fuel (rest.dropWhile upperChar) true
    | none => findallTickerFuel fuel rest (wordChar c)

/-- The scan of the whole input, with enough fuel for every step. -/
def findallTicker (cs : List Char) (prevW : Bool) : List (List Char) :=
  findallTickerFuel cs.length cs prevW

/-- `str.upper` (ASCII). -/
def pyUpper (s : String) : List Char :=
  s.data.map Char.toUpper

/-- The token-candidate list of a text: `TICKER_RE.findall(text.upper())`. -/
def tickerCandidates (text : String) : List String :=
  (findallTicker (pyUpper text) false).map (fun t => String.mk t)

/-- The `AMBIGUOUS` stop-word set of `reddit_crawler_stock.py` (ambiguous in
context; filters false positives at extraction time). -/
def AMBIGUOUS : Finset String :=
  {"YOU", "ON", "T", "BE", "SO", "UP", "AS", "OR", "CAN", "HAS", "NOW", "HE", "BY", "AN", "AND", "AM", "ANY", "BEAT", "AGO",
   "IS", "WHERE", "NOT", "BRO", "SAY", "POST", "PLAY", "DAY", "SEE", "NEXT", "WELL", "WWW", "WAY", "HOPE", "BULL", "CARE", "CASH",
   "COOK", "COST", "LUCK", "OP", "MAN", "MOVE", "TOP", "JOB", "ELSE", "EVER", "FLOW", "LOW", "LOT", "REAL", "PUMP", "ROOT", "HIT",
   "NICE", "RUN", "NEAR", "BIT", "TWO", "ONE", "ADD", "BASE", "HUT", "PAY", "TRUE", "WTF", "GAIN", "AREN", "DEEP", "CUZ", "EAT", "FACT",
   "LINE", "APP", "WOW", "AIN", "EDIT", "EXP", "FAT", "PLUS", "BILL", "DRUG", "MAX", "NET", "AI", "K", "F", "VS", "LINK", "FORM"}

/-- `extract_mentions(text, allowed)`: every regex candidate of the
upper-cased text that is in the whitelist and not in `AMBIGUOUS`, in match
order. -/
def extract_mentions (text : String) (allowed : Finset String) : List String :=
  (tickerCandidates text).filter (fun m => decide (m ∈ allowed) && !(decide (m ∈ AMBIGUOUS)))

/-! ### Whitelist builder (`script/build_ticker_list.py`) -/

/-- ASCII whitespace stripped by `str.strip()`. -/
def pyWhitespace (c : Char) : Bool :=
  c == ' ' || c == '\t' || c == '\n' || c == '\r' || c == '\x0b' || c == '\x0c'

/-- `str.strip()` (ASCII whitespace). -/
def pyStrip (cs : List Char) : List Char :=
  ((cs.dropWhile pyWhitespace).reverse.dropWhile pyWhitespace).reverse

/-- `str.isalpha()` (ASCII): nonempty and all letters. -/
def pyIsAlpha (cs : List Char) : Bool :=
  !cs.isEmpty && cs.all (fun c => ('A' ≤ c && c ≤ 'Z') || ('a' ≤ c && c ≤ 'z'))

/-- `symbol.strip().upper().replace(".", "/")` — the normalization at the top
of the `clean` loop. -/
def normalizeSym (s : String) : String :=
  String.mk (((pyStrip s.data).map Char.toUpper).map (fun c => if c == '.' then '/' else c))

/-- Left part of `sym.partition("/")`: everything before the first slash. -/
def slashLeft (cs : List Char) : List Char :=
  cs.takeWhile (fun c => c != '/')

/-- Right part of `sym.partition("/")`: everything after the first slash. -/
def slashRight (cs : List Char) : List Char :=
  (cs.dropWhile (fun c => c != '/')).drop 1

/-- `KEEP_SINGLE` of `build_ticker_list.py`: the one-letter tickers kept. -/
def KEEP_SINGLE : Finset String := {"F", "T", "O", "K"}

/-- `MANUAL_STOP` of `build_ticker_list.py`. -/
def MANUAL_STOP : Finset String :=
  {"ALL", "ARE", "BUY", "CALL", "CEO", "CFO", "MOON", "OPEN", "PLAN", "SELL",
   "USA", "NEW", "GOOD", "LOVE", "YOLO", "DD", "BIG", "DAY", "OUT"}

/-- The body of the `clean` loop applied to one already-normalized symbol;
`w` is the `_looks_like_word` oracle (the external `wordfreq` lookup
`zipf_frequency(sym.lower(), "en") > 4.0`).  Each `false` mirrors one
`continue` of the source. -/
def cleanAccepts (w : String → Bool) (sym : String) : Bool :=
  let cs := sym.data
  if cs.length == 1 then
    decide (sym ∈ KEEP_SINGLE)
  else if cs.contains '/' &&
      !(1 ≤ (slashLeft cs).length && (slashLeft cs).length ≤ 4 && (slashRight cs).length == 1) then
    false
  else if !(cs.contains '/') && !(2 ≤ cs.length && cs.length ≤ 5) then
    false
  else if !(pyIsAlpha cs || cs.contains '/') then
    false
  else if decide (sym ∈ MANUAL_STOP) || w sym then
    false
  else
    true

/-- `clean(raw)`: normalize every raw candidate and keep the accepted ones as
a set (the source iterates a set of raw symbols; the iteration order does not
affect the resulting set). -/
def clean (w : String → Bool) (raw : List String) : Finset String :=
  (raw.filterMap (fun s =>
    let sym := normalizeSym s
    if cleanAccepts w sym then some sym else none)).toFinset

/-- The spec's acceptance rule for slash symbols, written from the spec's
words for comparison with `cleanAccepts`: left segment matches `[A-Z]{1,4}`
and right segment matches `[A-Z]{1}`. -/
def specSlashRule (sym : String) : Prop :=
  ((slashLeft sym.data).all upperChar ∧ 1 ≤ (slashLeft sym.data).length ∧
    (slashLeft sym.data).length ≤ 4) ∧
  ((slashRight sym.data).all upperChar ∧ (slashRight sym.data).length = 1)

instance (sym : String) : Decidable (specSlashRule sym) := by
  unfold specSlashRule; infer_instance

/-- Whether a modelled call outcome is an exception. -/
def exceptIsErr {E A : Type} : Except E A → Bool
  | .error _ => true
  | .ok _ => false

/-- The body of the `retry(max_tries, pause)` decorator's
`for att in range(1, max_tries + 1)` loop.  The wrapped fallible call is
modelled by `f : Nat → Except E A`, giving the outcome of each (1-based)
attempt.  `remaining` is the number of loop iterations left (the recursion
is structural on it so the function reduces in the kernel; the top-level
call `retry` starts with `remaining = maxTries`, `att = 1`, keeping the
invariant `att + remaining = maxTries + 1`).

Returns the wrapper's outcome (`none` when the loop body never runs, i.e.
`max_tries = 0`, where the Python wrapper falls through returning `None`),
the number of calls made, and the list of sleep durations requested
(`time.sleep(pause * att)` after each failed non-final attempt).  Source
defaults: `max_tries = 3`, `pause = 3.0`. -/
def retryGo {E A : Type} (f : Nat → Except E A) (maxTries : Nat) (pause : ℚ) :
    Nat → Nat → Option (Except E A) × Nat × List ℚ
  | 0, _ => (none, 0, [])
  | remaining + 1, att =>
    match f att with
    | .ok v => (some (.ok v), 1, [])
    | .error e =>
      if att == maxTries then (some (.error e), 1, [])
      else
        let r := retryGo f maxTries pause remaining (att + 1)
        (r.1, r.2.1 + 1, (pause * (att : ℚ)) :: r.2.2)

/-- The wrapped call: the loop over attempts `1 .. max_tries`. -/
def retry {E A : Type} (f : Nat → Except E A) (maxTries : Nat) (pause : ℚ) :
    Option (Except E A) × Nat × List ℚ :=
  retryGo f maxTries pause maxTries 1

/-- Outcome of one `yf.Ticker(s).fast_info` lookup inside `verify_with_yf`:
the call can raise, return a falsy value, or return a truthy value. -/
inductive YfOutcome where
  | raises
  | falsy
  | truthy
deriving DecidableEq

/-- `_ok(s)` of `verify_with_yf`: `bool(yf.Ticker(s).fast_info)` with every
exception mapped to `False`. -/
def yfOk (oracle : String → YfOutcome) (s : String) : Bool :=
  decide (oracle s = .truthy)

/-- `verify_with_yf(symbols)`: when `yfinance` is not importable the input
set is returned unchanged (with a warning); otherwise the symbols whose
lookup is truthy are kept.  The thread pool runs the independent per-symbol
lookups; the resulting set does not depend on their order. -/
def verify_with_yf (yfAvailable : Bool) (oracle : String → YfOutcome)
    (symbols : Finset String) : Finset String :=
  if !yfAvailable then symbols
  else symbols.filter (fun s => yfOk oracle s = true)

/-! ### Aggregation and alerts (`reddit_crawler_stock.py`)

The `mentions` table rows carry the columns used by `update_daily_stats`;
`created_date` stands for `DATE(created_at)`.  The `LEFT JOIN`s to `posts`
and `comments` are modelled by author lookup functions: `postAuthor pid` is
`p.author_id` of the joined post row, `none` when the row or its author is
NULL, likewise `commentAuthor`. -/

structure Mention where
  symbol : String
  post_id : Option String
  comment_id : Option String
  created_date : String
deriving DecidableEq

/-- `COALESCE(p.author_id, c.author_id)` for one mention row
(`COUNT(DISTINCT ...)` ignores NULLs, i.e. `none`). -/
def mentionAuthor (postAuthor commentAuthor : String → Option String)
    (m : Mention) : Option String :=
  (m.post_id.bind postAuthor).orElse (fun _ => m.comment_id.bind commentAuthor)

/-- One `daily_stats` row restricted to the columns written by
`update_daily_stats` (the key `(symbol, date)` and the four counts). -/
structure DailyStat where
  symbol : String
  date : String
  mention_count : Nat
  post_mentions : Nat
  comment_mentions : Nat
  unique_authors : Nat
deriving DecidableEq

/-- The `(symbol, date)` key of a `daily_stats` row, the conflict target of
`ON CONFLICT(symbol,date)`. -/
def dsKey (r : DailyStat) : String × String :=
  (r.symbol, r.date)

/-- The `SELECT ... GROUP BY m.symbol` of `update_daily_stats` over the
mentions of the current date: one row per distinct symbol with the four
aggregate counts. -/
def computeDailyRows (today : String)
    (postAuthor commentAuthor : String → Option String)
    (mentions : List Mention) : List DailyStat :=
  let todays := mentions.filter (fun m => m.created_date == today)
  ((todays.map (fun m => m.symbol)).dedup).map (fun s =>
    let ms := todays.filter (fun m => m.symbol == s)
    { symbol := s
      date := today
      mention_count := ms.length
      post_mentions := (ms.filter (fun m => m.post_id.isSome)).length
      comment_mentions := (ms.filter (fun m => m.comment_id.isSome)).length
      unique_authors := ((ms.filterMap (mentionAuthor postAuthor commentAuthor)).dedup).length })

/-- `INSERT ... ON CONFLICT(symbol,date) DO UPDATE SET` for one computed row:
if a row with the same `(symbol, date)` key exists it is overwritten with the
excluded row's counts, otherwise the row is inserted.  The conflict target is
the schema's UNIQUE constraint on `(symbol, date)`, under which at most one
row can match; the overwrite is applied to every matching row, which
coincides with SQLite on every table satisfying that constraint. -/
def upsertDailyStat (table : List DailyStat) (r : DailyStat) : List DailyStat :=
  if table.any (fun q => decide (dsKey q = dsKey r)) then
    table.map (fun q => if dsKey q = dsKey r then r else q)
  else
    table ++ [r]

/-- `update_daily_stats`: upsert every aggregated row for today into
`daily_stats`. -/
def update_daily_stats (today : String)
    (postAuthor commentAuthor : String → Option String)
    (mentions : List Mention) (stats : List DailyStat) : List DailyStat :=
  (computeDailyRows today postAuthor commentAuthor mentions).foldl upsertDailyStat stats

/-- No two `daily_stats` rows share a `(symbol, date)` key — the table's
UNIQUE constraint backing `ON CONFLICT(symbol,date)`. -/
def dsNoDupKey (table : List DailyStat) : Prop :=
  (table.map dsKey).Nodup

/-- One `trend_alerts` row restricted to the columns of the `INSERT` of
`update_trend_alerts`. `alert_date` is the calendar date of `created_at`.

Modelled from the spec: `schema.sql`, which holds the uniqueness constraint
that makes `INSERT OR IGNORE` skip duplicates, is not under `src/`; the spec
says one alert per symbol per day is kept, duplicate triggers within the
same day being ignored, so the ignore test is modelled on the key
`(symbol, alert_date)`. -/
structure TrendAlert where
  symbol : String
  alert_type : String
  threshold : Nat
  current_value : Nat
  percent_change : Option Nat
  window_minutes : Nat
  message : String
  priority : String
  alert_date : String
deriving DecidableEq

/-- The row built by the `INSERT OR IGNORE` of `update_trend_alerts` for one
`(symbol, cnt)` result of the threshold query. -/
def mkTrendAlert (threshold : Nat) (today : String) (symbol : String)
    (cnt : Nat) : TrendAlert :=
  { symbol := symbol
    alert_type := "mention_spike"
    threshold := threshold
    current_value := cnt
    percent_change := none
    window_minutes := 1440
    message := symbol ++ " wurde heute bereits " ++ toString cnt ++ "× erwähnt."
    priority := "medium"
    alert_date := today }

/-- Whether an alert for `(symbol, today)` already exists — the duplicate
test of `INSERT OR IGNORE` under the one-per-symbol-per-day key. -/
def hasAlertToday (alerts : List TrendAlert) (today symbol : String) : Bool :=
  alerts.any (fun a => a.symbol == symbol && a.alert_date == today)

/-- One `INSERT OR IGNORE` step of `update_trend_alerts`: append the new
alert row unless one already exists for `(symbol, today)`. -/
def insertAlertIgnore (threshold : Nat) (today : String)
    (acc : List TrendAlert) (r : DailyStat) : List TrendAlert :=
  if hasAlertToday acc today r.symbol then acc
  else acc ++ [mkTrendAlert threshold today r.symbol r.mention_count]

/-- `update_trend_alerts(threshold)`: for every `daily_stats` row of today
whose `mention_count` meets the threshold, insert one `mention_spike` alert
unless one already exists for that symbol today; existing rows are never
modified. -/
def update_trend_alerts (threshold : Nat) (today : String)
    (stats : List DailyStat) (alerts : List TrendAlert) : List TrendAlert :=
  let eligible := stats.filter (fun r => r.date == today && threshold ≤ r.mention_count)
  eligible.foldl (insertAlertIgnore threshold today) alerts

/-- No two `trend_alerts` rows share a `(symbol, day)` key (the spec's
one-alert-per-symbol-per-day invariant). -/
def taNoDupKey (alerts : List TrendAlert) : Prop :=
  (alerts.map (fun a => (a.symbol, a.alert_date))).Nodup

/-- Proof-layer predicate for the daily-stats upsert: the table already
holds exactly the row `r` at the key of `r` (every row with that key equals
`r`, and `r` is present). -/
def dsSettled (t : List DailyStat) (r : DailyStat) : Prop :=
  (∀ q ∈ t, dsKey q = dsKey r → q = r) ∧ r ∈ t

/-! ## Theorems -/

theorem tryTickerMatch_shape {p : Bool} {cs tok : List Char}
    (h : tryTickerMatch p cs = some tok) :
    1 ≤ tok.length ∧ tok.length ≤ 5 ∧ tok.all upperChar = true := by
  match cs with
  | [] => simp [tryTickerMatch] at h
  | c :: rest =>
    simp only [tryTickerMatch] at h
    repeat' split at h
    all_goals simp_all
    · intro x hx
      rw [← h] at hx
      exact List.mem_takeWhile_imp hx
    · rename_i hne hc hlen
      rw [← h]
      refine ⟨by simp, by simp; omega, ?_⟩
      intro x hx
      rcases List.mem_cons.mp hx with rfl | hx'
      · exact hc.1
      · exact List.mem_takeWhile_imp hx'

/-- The fuel of the scanner is inessential: any fuel at least the input
length gives the same scan result. -/
theorem findallTickerFuel_irrel : ∀ {f₁ f₂ : Nat} {cs : List Char} {p : Bool},
    cs.length ≤ f₁ → cs.length ≤ f₂ →
    findallTickerFuel f₁ cs p = findallTickerFuel f₂ cs p := by
  intro f₁
  induction f₁ with
  | zero =>
    intro f₂ cs p h₁ _
    have : cs = [] := List.length_eq_zero.mp (Nat.le_zero.mp h₁)
    subst this
    cases f₂ <;> simp [findallTickerFuel]
  | succ f₁ ih =>
    intro f₂ cs p h₁ h₂
    cases cs with
    | nil => cases f₂ <;> simp [findallTickerFuel]
    | cons c rest =>
      cases f₂ with
      | zero => exact absurd h₂ (by simp)
      | succ f₂ =>
        simp only [findallTickerFuel]
        have hr : rest.length ≤ f₁ := by simpa using h₁
        have hr₂ : rest.length ≤ f₂ := by simpa using h₂
        have hd : (rest.dropWhile upperChar).length ≤ rest.length :=
          (List.dropWhile_sublist upperChar).length_le
        cases tryTickerMatch p (c :: rest) with
        | some tok =>
          simp only []
          rw [ih (Nat.le_trans hd hr) (Nat.le_trans hd hr₂)]
        | none =>
          simp only []
          rw [ih hr hr₂]

theorem mem_findallTickerFuel : ∀ {fuel : Nat} {cs : List Char} {p : Bool}
    {tok : List Char}, tok ∈ findallTickerFuel fuel cs p →
    1 ≤ tok.length ∧ tok.length ≤ 5 ∧ tok.all upperChar = true := by
  intro fuel
  induction fuel with
  | zero => intro cs p tok h; simp [findallTickerFuel] at h
  | succ fuel ih =>
    intro cs p tok h
    cases cs with
    | nil => simp [findallTickerFuel] at h
    | cons c rest =>
      simp only [findallTickerFuel] at h
      cases heq : tryTickerMatch p (c :: rest) with
      | some tok' =>
        rw [heq] at h
        rcases List.mem_cons.mp h with rfl | h'
        · exact tryTickerMatch_shape heq
        · exact ih h'
      | none =>
        rw [heq] at h
        exact ih h

theorem mem_findallTicker {cs : List Char} {p : Bool} {tok : List Char}
    (h : tok ∈ findallTicker cs p) :
    1 ≤ tok.length ∧ tok.length ≤ 5 ∧ tok.all upperChar = true :=
  mem_findallTickerFuel h

theorem mem_tickerCandidates {text s : String} (h : s ∈ tickerCandidates text) :
    1 ≤ s.length ∧ s.length ≤ 5 ∧ s.data.all upperChar = true := by
  unfold tickerCandidates at h
  rcases List.mem_map.mp h with ⟨tok, htok, rfl⟩
  simpa [String.length] using mem_findallTicker htok

theorem mem_extract_mentions {text : String} {wl : Finset String} {m : String}
    (h : m ∈ extract_mentions text wl) :
    m ∈ tickerCandidates text ∧ m ∈ wl ∧ m ∉ AMBIGUOUS := by
  unfold extract_mentions at h
  rw [List.mem_filter] at h
  have h2 := h.2
  simp only [Bool.and_eq_true, decide_eq_true_eq, Bool.not_eq_true',
    decide_eq_false_iff_not] at h2
  exact ⟨h.1, h2.1, h2.2⟩

/-- C1: every element of the list returned by `extract_mentions text wl` is
a member of the whitelist `wl` and is not a member of the ambiguous-context
stop-word set `AMBIGUOUS`, for every text and every whitelist. -/
theorem extract_mentions_only_whitelisted_unambiguous (text : String)
    (wl : Finset String) (m : String) (h : m ∈ extract_mentions text wl) :
    m ∈ wl ∧ m ∉ AMBIGUOUS :=
  ⟨(mem_extract_mentions h).2.1, (mem_extract_mentions h).2.2⟩

set_option maxRecDepth 8192 in
/-- Witness for C1 at the spec's own example text. -/
theorem extract_mentions_only_whitelisted_unambiguous_witness :
    "AAPL" ∈ ({"AAPL", "TSLA"} : Finset String) ∧ "AAPL" ∉ AMBIGUOUS :=
  extract_mentions_only_whitelisted_unambiguous
    "Buy $AAPL or go all-in on TSLA!" {"AAPL", "TSLA"} "AAPL" (by decide)

/-- C3: `extract_mentions` is order-preserving and keeps one element per
matching occurrence: the result is a sublist (in order) of the candidate
list of the text, and a whitelisted, non-ambiguous symbol occurs in the
result exactly as often as it occurs as a token candidate. -/
theorem extract_mentions_order_preserving_with_duplicates (text : String)
    (wl : Finset String) :
    List.Sublist (extract_mentions text wl) (tickerCandidates text) ∧
    ∀ s : String, s ∈ wl → s ∉ AMBIGUOUS →
      (extract_mentions text wl).count s = (tickerCandidates text).count s := by
  constructor
  · exact List.filter_sublist _
  · intro s hs hns
    exact List.count_filter (by simp [hs, hns])

set_option maxRecDepth 8192 in
/-- Witness for C3: a text with two occurrences of the same symbol. -/
theorem extract_mentions_order_preserving_with_duplicates_witness :
    List.Sublist (extract_mentions "TSLA calls, more TSLA!" {"TSLA"})
      (tickerCandidates "TSLA calls, more TSLA!") ∧
    (extract_mentions "TSLA calls, more TSLA!" {"TSLA"}).count "TSLA" =
      (tickerCandidates "TSLA calls, more TSLA!").count "TSLA" :=
  ⟨(extract_mentions_order_preserving_with_duplicates "TSLA calls, more TSLA!" {"TSLA"}).1,
   (extract_mentions_order_preserving_with_duplicates "TSLA calls, more TSLA!" {"TSLA"}).2
     "TSLA" (by decide) (by decide)⟩

set_option maxRecDepth 8192 in
/-- Counterexample to C4: for the text `"AAPL AAPL"` and whitelist
`{"AAPL"}` the extractor returns the symbol twice, so the result is not
bounded by the distinct-symbol set of the text unit. -/
theorem extract_mentions_distinct_counterexample :
    extract_mentions "AAPL AAPL" {"AAPL"} = ["AAPL", "AAPL"] ∧
    ¬ (extract_mentions "AAPL AAPL" {"AAPL"}).count "AAPL" ≤ 1 := by
  constructor
  · decide
  · decide

/-- C4 (amended): the extractor returns one element per matching occurrence,
not at most one per distinct symbol: a symbol occurs in the result exactly
as often as it occurs as a token candidate when it is whitelisted and not
ambiguous, and never otherwise. -/
theorem extract_mentions_count_characterization (text : String)
    (wl : Finset String) (s : String) :
    (extract_mentions text wl).count s =
      if s ∈ wl ∧ s ∉ AMBIGUOUS then (tickerCandidates text).count s else 0 := by
  unfold extract_mentions
  split
  · rename_i h
    exact List.count_filter (by simp [h.1, h.2])
  · rename_i h
    rw [List.count_eq_zero]
    intro hmem
    rw [List.mem_filter] at hmem
    have h2 := hmem.2
    simp only [Bool.and_eq_true, decide_eq_true_eq, Bool.not_eq_true',
      decide_eq_false_iff_not] at h2
    exact h ⟨h2.1, h2.2⟩

/-- C9: every token returned by `extract_mentions` is one to five uppercase
ASCII letters; consequently a whitelist entry containing a slash (such as
the `"BRK/B"` share-class symbols that the whitelist builder accepts) is
never returned, for any input text. -/
theorem extract_mentions_tokens_upper_at_most_five (text : String)
    (wl : Finset String) :
    (∀ s : String, s ∈ extract_mentions text wl →
      1 ≤ s.length ∧ s.length ≤ 5 ∧ s.data.all upperChar = true) ∧
    (∀ t : String, '/' ∈ t.data → t ∉ extract_mentions text wl) := by
  constructor
  · intro s hs
    exact mem_tickerCandidates (mem_extract_mentions hs).1
  · intro t ht hmem
    have hshape := mem_tickerCandidates (mem_extract_mentions hmem).1
    have : upperChar '/' = true := by
      have := List.all_eq_true.mp hshape.2.2
      exact this '/' ht
    simp [upperChar] at this

set_option maxRecDepth 8192 in
/-- Witness for C9: the slash symbol `"BRK/B"` is not extracted from a text
that spells it, even when whitelisted. -/
theorem extract_mentions_tokens_upper_at_most_five_witness :
    "BRK/B" ∉ extract_mentions "Is BRK/B up today?" {"BRK/B"} :=
  (extract_mentions_tokens_upper_at_most_five "Is BRK/B up today?" {"BRK/B"}).2
    "BRK/B" (by decide)

set_option maxRecDepth 8192 in
/-- C10: the one-letter keep-list of the whitelist builder is
`{"F", "T", "O", "K"}`; every entry other than `"O"` is in `AMBIGUOUS` and
can never be returned by `extract_mentions`, for any text and any whitelist,
while `"O"` is returned when whitelisted and mentioned. -/
theorem keep_single_only_O_extractable :
    (∀ s : String, s ∈ KEEP_SINGLE → s ≠ "O" →
      s ∈ AMBIGUOUS ∧ ∀ (text : String) (wl : Finset String),
        s ∉ extract_mentions text wl) ∧
    extract_mentions "O" {"O"} = ["O"] := by
  constructor
  · intro s hk hno
    have hk' : s = "F" ∨ s = "T" ∨ s = "O" ∨ s = "K" := by
      simpa [KEEP_SINGLE, Finset.mem_insert, Finset.mem_singleton] using hk
    have hamb : s ∈ AMBIGUOUS := by
      rcases hk' with rfl | rfl | rfl | rfl
      · decide
      · decide
      · exact absurd rfl hno
      · decide
    refine ⟨hamb, fun text wl hmem => ?_⟩
    exact (mem_extract_mentions hmem).2.2 hamb
  · decide

set_option maxRecDepth 8192 in
/-- Witness for C10 at the ambiguous one-letter ticker `"T"`. -/
theorem keep_single_only_O_extractable_witness :
    "T" ∈ AMBIGUOUS ∧ "T" ∉ extract_mentions "T is mooning" {"T"} :=
  ⟨(keep_single_only_O_extractable.1 "T" (by decide) (by decide)).1,
   (keep_single_only_O_extractable.1 "T" (by decide) (by decide)).2 "T is mooning" {"T"}⟩

theorem mem_clean_singleton {w : String → Bool} {s x : String} :
    x ∈ clean w [s] ↔ x = normalizeSym s ∧ cleanAccepts w (normalizeSym s) = true := by
  unfold clean
  rcases h : cleanAccepts w (normalizeSym s) with _ | _
  · simp [List.filterMap, h]
  · simp [List.filterMap, h]

/-- Counterexample to C2: the raw symbol `"1A/B"` normalizes to itself,
contains exactly one slash, and is accepted by `clean` (with a word filter
that flags nothing), yet its left segment `"1A"` does not match
`[A-Z]{1,4}` — the source checks the segment lengths only, not that they
are letters. -/
theorem clean_slash_counterexample :
    (normalizeSym "1A/B").data.count '/' = 1 ∧
    normalizeSym "1A/B" ∈ clean (fun _ => false) ["1A/B"] ∧
    ¬ specSlashRule (normalizeSym "1A/B") := by
  refine ⟨by decide, ?_, by decide⟩
  rw [mem_clean_singleton]
  exact ⟨rfl, by decide⟩

/-- C2 (amended): for every input whose normalized form contains exactly one
slash, the symbol is accepted by `clean` iff the left segment has length 1–4
and the right segment has length exactly 1 (letters are not required), the
normalized form is not in `MANUAL_STOP`, and the word-frequency filter does
not flag it. -/
theorem clean_slash_rule (w : String → Bool) (s : String)
    (h : (normalizeSym s).data.count '/' = 1) :
    normalizeSym s ∈ clean w [s] ↔
      (1 ≤ (slashLeft (normalizeSym s).data).length ∧
       (slashLeft (normalizeSym s).data).length ≤ 4 ∧
       (slashRight (normalizeSym s).data).length = 1 ∧
       normalizeSym s ∉ MANUAL_STOP ∧ w (normalizeSym s) = false) := by
  rw [mem_clean_singleton]
  simp only [true_and]
  set sym := normalizeSym s with hsym
  have hmem : '/' ∈ sym.data := List.count_pos_iff.mp (by omega)
  have hcont : sym.data.contains '/' = true :=
    List.contains_iff_exists_mem_beq.mpr ⟨'/', hmem, rfl⟩
  by_cases hlen : sym.data.length = 1
  · -- the normalized form is the single character "/"
    have hdata : sym.data = ['/'] := by
      rcases hd : sym.data with _ | ⟨a, _ | ⟨b, t⟩⟩
      · rw [hd] at hlen; simp at hlen
      · rw [hd] at h
        have ha : a = '/' := by
          by_cases hA : a = '/'
          · exact hA
          · simp [List.count_cons, hA] at h
        rw [ha]
      · rw [hd] at hlen; simp at hlen
    have hs : sym = "/" := by
      apply String.ext
      simpa using hdata
    rw [hs]
    have hacc : cleanAccepts w "/" = false := rfl
    constructor
    · intro hc; rw [hacc] at hc; exact absurd hc (by simp)
    · intro hrhs
      exact absurd hrhs.1 (by decide)
  · -- at least two characters, one of them a slash
    by_cases h1 : 1 ≤ (slashLeft sym.data).length <;>
    by_cases h2 : (slashLeft sym.data).length ≤ 4 <;>
    by_cases h3 : (slashRight sym.data).length = 1 <;>
    by_cases h4 : sym ∈ MANUAL_STOP <;>
    by_cases h5 : w sym = true <;>
    simp_all [cleanAccepts, hcont, hlen]

/-- Witness for C2 (amended) at the spec's own example `"BRK.B"`. -/
theorem clean_slash_rule_witness :
    normalizeSym "BRK.B" ∈ clean (fun _ => false) ["BRK.B"] :=
  (clean_slash_rule (fun _ => false) "BRK.B" (by decide)).mpr
    ⟨by decide, by decide, by decide, by decide, rfl⟩

theorem retryGo_ok {E A : Type} (f : Nat → Except E A) (maxTries : Nat)
    (pause : ℚ) : ∀ (remaining att k : Nat),
    att + remaining = maxTries + 1 → att ≤ k → k ≤ maxTries →
    exceptIsErr (f k) = false →
    (∀ j, att ≤ j → j < k → exceptIsErr (f j) = true) →
    retryGo f maxTries pause remaining att =
      (some (f k), k - att + 1,
        (List.range (k - att)).map (fun i => pause * ((att + i : Nat) : ℚ))) := by
  intro remaining
  induction remaining with
  | zero => intro att k hinv hak hkm _ _; omega
  | succ remaining ih =>
    intro att k hinv hak hkm hok herr
    rcases Nat.lt_or_ge att k with hlt | hge
    · -- this attempt fails; recurse at att + 1
      have hfe : exceptIsErr (f att) = true := herr att le_rfl hlt
      rcases hf : f att with e | v
      case _ =>
        simp only [retryGo, hf]
        have hne : (att == maxTries) = false := by
          simp only [beq_eq_false_iff_ne, ne_eq]
          omega
        rw [hne]
        simp only [Bool.false_eq_true, if_false]
        rw [ih (att + 1) k (by omega) (by omega) hkm hok
          (fun j hj1 hj2 => herr j (by omega) hj2)]
        have hka : k - att = (k - (att + 1)) + 1 := by omega
        refine Prod.ext rfl (Prod.ext ?_ ?_) <;> simp only
        · omega
        · rw [hka, List.range_succ_eq_map, List.map_cons, List.map_map]
          refine congrArg₂ _ (by norm_num) ?_
          refine List.map_congr_left (fun i _ => ?_)
          simp only [Function.comp]
          congr 1
          push_cast
          ring
      case _ =>
        rw [hf] at hfe
        simp [exceptIsErr] at hfe
    · -- att = k: this attempt succeeds
      have hak' : att = k := by omega
      subst hak'
      rcases hf : f att with e | v
      · rw [hf] at hok; simp [exceptIsErr] at hok
      · simp only [retryGo, hf]
        have : att - att = 0 := by omega
        simp [this, hf]

theorem retryGo_err {E A : Type} (f : Nat → Except E A) (maxTries : Nat)
    (pause : ℚ) : ∀ (remaining att : Nat),
    att + remaining = maxTries + 1 → att ≤ maxTries →
    (∀ j, att ≤ j → j ≤ maxTries → exceptIsErr (f j) = true) →
    retryGo f maxTries pause remaining att =
      (some (f maxTries), maxTries - att + 1,
        (List.range (maxTries - att)).map (fun i => pause * ((att + i : Nat) : ℚ))) := by
  intro remaining
  induction remaining with
  | zero => intro att hinv ham _; omega
  | succ remaining ih =>
    intro att hinv ham herr
    have hfe : exceptIsErr (f att) = true := herr att le_rfl ham
    rcases hf : f att with e | v
    case _ =>
      rcases Nat.lt_or_ge att maxTries with hlt | hge
      · simp only [retryGo, hf]
        have hne : (att == maxTries) = false := by
          simp only [beq_eq_false_iff_ne, ne_eq]
          omega
        rw [hne]
        simp only [Bool.false_eq_true, if_false]
        rw [ih (att + 1) (by omega) (by omega)
          (fun j hj1 hj2 => herr j (by omega) hj2)]
        have hka : maxTries - att = (maxTries - (att + 1)) + 1 := by omega
        refine Prod.ext rfl (Prod.ext ?_ ?_) <;> simp only
        · omega
        · rw [hka, List.range_succ_eq_map, List.map_cons, List.map_map]
          refine congrArg₂ _ (by norm_num) ?_
          refine List.map_congr_left (fun i _ => ?_)
          simp only [Function.comp]
          congr 1
          push_cast
          ring
      · have ham' : att = maxTries := by omega
        subst ham'
        simp only [retryGo, hf, beq_self_eq_true, if_true]
        have : att - att = 0 := by omega
        simp [this, hf]
    case _ =>
      rw [hf] at hfe; simp [exceptIsErr] at hfe

/-- C7: for a fallible call wrapped by `retry(max_tries, pause)`: if some
attempt among the first `max_tries` succeeds, the wrapper returns that
attempt's result after exactly that many calls; if all `max_tries` attempts
raise, the wrapper raises the final attempt's exception after exactly
`max_tries` calls; and in both cases the sleep requested between attempt
`a` and attempt `a + 1` is `pause * a` (linearly increasing). -/
theorem retry_spec {E A : Type} (f : Nat → Except E A) (maxTries : Nat)
    (pause : ℚ) :
    (∀ k, 1 ≤ k → k ≤ maxTries → exceptIsErr (f k) = false →
      (∀ j, 1 ≤ j → j < k → exceptIsErr (f j) = true) →
      retry f maxTries pause =
        (some (f k), k, (List.range (k - 1)).map (fun i => pause * ((1 + i : Nat) : ℚ)))) ∧
    (1 ≤ maxTries → (∀ j, 1 ≤ j → j ≤ maxTries → exceptIsErr (f j) = true) →
      retry f maxTries pause =
        (some (f maxTries), maxTries,
          (List.range (maxTries - 1)).map (fun i => pause * ((1 + i : Nat) : ℚ)))) := by
  constructor
  · intro k h1 hkm hok herr
    unfold retry
    rw [retryGo_ok f maxTries pause maxTries 1 k (by omega) h1 hkm hok herr]
    refine Prod.ext rfl (Prod.ext ?_ rfl) <;> simp only
    omega
  · intro h1 herr
    unfold retry
    rw [retryGo_err f maxTries pause maxTries 1 (by omega) h1 herr]
    refine Prod.ext rfl (Prod.ext ?_ rfl) <;> simp only
    omega

/-- Witness for C7: a call that fails once and succeeds on the second of
three attempts returns the success after two calls with one sleep of
`pause * 1 = 3`. -/
theorem retry_spec_witness :
    retry (fun att => if att ≤ 1 then Except.error "boom" else Except.ok (42 : Nat)) 3 3 =
      (some ((fun att => if att ≤ 1 then Except.error "boom" else Except.ok (42 : Nat)) 2), 2,
        (List.range 1).map (fun i => (3 : ℚ) * ((1 + i : Nat) : ℚ))) :=
  (retry_spec (fun att => if att ≤ 1 then Except.error "boom" else Except.ok (42 : Nat)) 3 3).1
    2 (by decide) (by decide) (by decide)
    (fun j h1 h2 => by
      have hj : j = 1 := by omega
      subst hj
      decide)

/-- C8: `verify_with_yf` returns the input set unchanged when the
verification dependency is unavailable; otherwise it returns exactly the
subset of input symbols whose lookup succeeds with a truthy result, so a
single symbol's failing lookup excludes only that symbol, and the result is
always a subset of the input. -/
theorem verify_with_yf_spec (yfAvailable : Bool) (oracle : String → YfOutcome)
    (symbols : Finset String) :
    verify_with_yf yfAvailable oracle symbols ⊆ symbols ∧
    (yfAvailable = false → verify_with_yf yfAvailable oracle symbols = symbols) ∧
    (yfAvailable = true → ∀ s : String,
      s ∈ verify_with_yf yfAvailable oracle symbols ↔
        s ∈ symbols ∧ oracle s = YfOutcome.truthy) := by
  refine ⟨?_, ?_, ?_⟩
  · unfold verify_with_yf
    cases yfAvailable with
    | false => simp
    | true => simp [Finset.filter_subset]
  · intro h; subst h; simp [verify_with_yf]
  · intro h s; subst h; simp [verify_with_yf, yfOk]

/-- Witness for C8: with the oracle succeeding only on `"AAPL"`, a raising
lookup excludes only `"ZZZZ"`. -/
theorem verify_with_yf_spec_witness :
    "AAPL" ∈ verify_with_yf true
        (fun s => if s = "AAPL" then YfOutcome.truthy else YfOutcome.raises)
        {"AAPL", "ZZZZ"} ↔
      "AAPL" ∈ ({"AAPL", "ZZZZ"} : Finset String) ∧
        (fun s => if s = "AAPL" then YfOutcome.truthy else YfOutcome.raises) "AAPL" =
          YfOutcome.truthy :=
  (verify_with_yf_spec true
    (fun s => if s = "AAPL" then YfOutcome.truthy else YfOutcome.raises)
    {"AAPL", "ZZZZ"}).2.2 rfl "AAPL"

theorem insertAlertIgnore_isPrefix (threshold : Nat) (today : String)
    (acc : List TrendAlert) (r : DailyStat) :
    List.IsPrefix acc (insertAlertIgnore threshold today acc r) := by
  unfold insertAlertIgnore
  split
  · exact List.prefix_refl acc
  · exact ⟨[mkTrendAlert threshold today r.symbol r.mention_count], rfl⟩

theorem foldl_insertAlertIgnore_isPrefix (threshold : Nat) (today : String) :
    ∀ (l : List DailyStat) (acc : List TrendAlert),
    List.IsPrefix acc (l.foldl (insertAlertIgnore threshold today) acc) := by
  intro l
  induction l with
  | nil => intro acc; exact List.prefix_refl acc
  | cons r l ih =>
    intro acc
    exact List.IsPrefix.trans (insertAlertIgnore_isPrefix threshold today acc r)
      (ih (insertAlertIgnore threshold today acc r))

theorem hasAlertToday_insertAlertIgnore_self (threshold : Nat) (today : String)
    (acc : List TrendAlert) (r : DailyStat) :
    hasAlertToday (insertAlertIgnore threshold today acc r) today r.symbol = true := by
  unfold insertAlertIgnore
  split
  · rename_i h; exact h
  · unfold hasAlertToday
    rw [List.any_append]
    simp [mkTrendAlert]

theorem hasAlertToday_insertAlertIgnore_mono (threshold : Nat) (today : String)
    (acc : List TrendAlert) (r : DailyStat) (s : String)
    (h : hasAlertToday acc today s = true) :
    hasAlertToday (insertAlertIgnore threshold today acc r) today s = true := by
  unfold insertAlertIgnore
  split
  · exact h
  · unfold hasAlertToday at h ⊢
    rw [List.any_append, h]
    simp

theorem hasAlertToday_foldl_mono (threshold : Nat) (today : String) :
    ∀ (l : List DailyStat) (acc : List TrendAlert) (s : String),
    hasAlertToday acc today s = true →
    hasAlertToday (l.foldl (insertAlertIgnore threshold today) acc) today s = true := by
  intro l
  induction l with
  | nil => intro acc s h; exact h
  | cons r l ih =>
    intro acc s h
    exact ih _ s (hasAlertToday_insertAlertIgnore_mono threshold today acc r s h)

theorem hasAlertToday_after_foldl (threshold : Nat) (today : String) :
    ∀ (l : List DailyStat) (acc : List TrendAlert), ∀ r ∈ l,
    hasAlertToday (l.foldl (insertAlertIgnore threshold today) acc) today r.symbol = true := by
  intro l
  induction l with
  | nil => intro acc r hr; exact absurd hr (by simp)
  | cons r0 l ih =>
    intro acc r hr
    rcases List.mem_cons.mp hr with rfl | hr'
    · exact hasAlertToday_foldl_mono threshold today l _ r.symbol
        (hasAlertToday_insertAlertIgnore_self threshold today acc r)
    · exact ih _ r hr'

theorem foldl_insertAlertIgnore_noop (threshold : Nat) (today : String) :
    ∀ (l : List DailyStat) (acc : List TrendAlert),
    (∀ r ∈ l, hasAlertToday acc today r.symbol = true) →
    l.foldl (insertAlertIgnore threshold today) acc = acc := by
  intro l
  induction l with
  | nil => intro acc _; rfl
  | cons r0 l ih =>
    intro acc hcov
    have h0 : insertAlertIgnore threshold today acc r0 = acc := by
      unfold insertAlertIgnore
      rw [if_pos (hcov r0 (by simp))]
    rw [List.foldl_cons, h0]
    exact ih acc (fun r hr => hcov r (by simp [hr]))

theorem taNoDupKey_insertAlertIgnore (threshold : Nat) (today : String)
    (acc : List TrendAlert) (r : DailyStat) (h : taNoDupKey acc) :
    taNoDupKey (insertAlertIgnore threshold today acc r) := by
  unfold insertAlertIgnore
  split
  · exact h
  · rename_i hno
    unfold taNoDupKey at h ⊢
    rw [List.map_append, List.nodup_append]
    refine ⟨h, by simp, ?_⟩
    intro p hp hq
    rcases List.mem_map.mp hp with ⟨a, ha, hpa⟩
    simp only [List.map_cons, List.map_nil, List.mem_singleton, mkTrendAlert] at hq
    have hno' : hasAlertToday acc today r.symbol = false := by
      rcases Bool.eq_false_or_eq_true (hasAlertToday acc today r.symbol) with h' | h'
      · exact absurd h' hno
      · exact h' 
    unfold hasAlertToday at hno'
    rw [List.any_eq_false] at hno'
    have hfa := hno' a ha
    simp only [Bool.and_eq_true, beq_iff_eq] at hfa
    have heq : (a.symbol, a.alert_date) = (r.symbol, today) := hpa.trans hq
    exact hfa ⟨congrArg Prod.fst heq, congrArg Prod.snd heq⟩

theorem taNoDupKey_foldl (threshold : Nat) (today : String) :
    ∀ (l : List DailyStat) (acc : List TrendAlert),
    taNoDupKey acc →
    taNoDupKey (l.foldl (insertAlertIgnore threshold today) acc) := by
  intro l
  induction l with
  | nil => intro acc h; exact h
  | cons r0 l ih =>
    intro acc h
    exact ih _ (taNoDupKey_insertAlertIgnore threshold today acc r0 h)

/-- C6: `update_trend_alerts` never modifies existing alert rows (the prior
table is a prefix of the new one), re-running it while the alert conditions
still hold inserts no second row (idempotence), and it preserves the
at-most-one-row-per-`(symbol, date)` invariant. -/
theorem update_trend_alerts_spec (threshold : Nat) (today : String)
    (stats : List DailyStat) (alerts : List TrendAlert) :
    List.IsPrefix alerts (update_trend_alerts threshold today stats alerts) ∧
    update_trend_alerts threshold today stats
        (update_trend_alerts threshold today stats alerts) =
      update_trend_alerts threshold today stats alerts ∧
    (taNoDupKey alerts → taNoDupKey (update_trend_alerts threshold today stats alerts)) := by
  refine ⟨?_, ?_, ?_⟩
  · exact foldl_insertAlertIgnore_isPrefix threshold today _ alerts
  · unfold update_trend_alerts
    apply foldl_insertAlertIgnore_noop
    intro r hr
    exact hasAlertToday_after_foldl threshold today _ alerts r hr
  · intro h
    exact taNoDupKey_foldl threshold today _ alerts h

/-- Witness for C6 at a one-row `daily_stats` table meeting the threshold
and an empty alert table. -/
theorem update_trend_alerts_spec_witness :
    List.IsPrefix ([] : List TrendAlert)
      (update_trend_alerts 10 "2025-01-01"
        [⟨"GME", "2025-01-01", 12, 2, 10, 3⟩] []) ∧
    update_trend_alerts 10 "2025-01-01" [⟨"GME", "2025-01-01", 12, 2, 10, 3⟩]
        (update_trend_alerts 10 "2025-01-01"
          [⟨"GME", "2025-01-01", 12, 2, 10, 3⟩] []) =
      update_trend_alerts 10 "2025-01-01" [⟨"GME", "2025-01-01", 12, 2, 10, 3⟩] [] ∧
    taNoDupKey (update_trend_alerts 10 "2025-01-01"
      [⟨"GME", "2025-01-01", 12, 2, 10, 3⟩] []) :=
  ⟨(update_trend_alerts_spec 10 "2025-01-01" [⟨"GME", "2025-01-01", 12, 2, 10, 3⟩] []).1,
   (update_trend_alerts_spec 10 "2025-01-01" [⟨"GME", "2025-01-01", 12, 2, 10, 3⟩] []).2.1,
   (update_trend_alerts_spec 10 "2025-01-01" [⟨"GME", "2025-01-01", 12, 2, 10, 3⟩] []).2.2
     (by simp [taNoDupKey])⟩

theorem dsSettled_upsert_self (t : List DailyStat) (r : DailyStat) :
    dsSettled (upsertDailyStat t r) r := by
  unfold upsertDailyStat dsSettled
  split
  · rename_i hany
    constructor
    · intro q hq hkey
      rcases List.mem_map.mp hq with ⟨q0, hq0, rfl⟩
      by_cases hk : dsKey q0 = dsKey r
      · rw [if_pos hk]
      · rw [if_neg hk] at hkey ⊢
        exact absurd hkey hk
    · rw [List.any_eq_true] at hany
      rcases hany with ⟨q0, hq0, hk⟩
      rw [decide_eq_true_eq] at hk
      exact List.mem_map.mpr ⟨q0, hq0, by rw [if_pos hk]⟩
  · rename_i hany
    constructor
    · intro q hq hkey
      rcases List.mem_append.mp hq with hq' | hq'
      · exfalso
        have hany' : t.any (fun q => decide (dsKey q = dsKey r)) = true :=
          List.any_eq_true.mpr ⟨q, hq', decide_eq_true hkey⟩
        exact hany hany'
      · simpa using hq'
    · simp

theorem dsSettled_upsert_other (t : List DailyStat) (r r' : DailyStat)
    (hne : dsKey r' ≠ dsKey r) (h : dsSettled t r) :
    dsSettled (upsertDailyStat t r') r := by
  unfold upsertDailyStat
  split
  · constructor
    · intro q hq hkey
      rcases List.mem_map.mp hq with ⟨q0, hq0, rfl⟩
      by_cases hk : dsKey q0 = dsKey r'
      · rw [if_pos hk] at hkey ⊢
        exact absurd hkey hne
      · rw [if_neg hk] at hkey ⊢
        exact h.1 q0 hq0 hkey
    · refine List.mem_map.mpr ⟨r, h.2, ?_⟩
      rw [if_neg (fun hk => hne hk.symm)]
  · exact ⟨fun q hq hkey => by
      rcases List.mem_append.mp hq with hq' | hq'
      · exact h.1 q hq' hkey
      · rw [List.mem_singleton] at hq'
        subst hq'
        exact absurd hkey hne,
     List.mem_append.mpr (Or.inl h.2)⟩

theorem dsSettled_foldl_preserve :
    ∀ (C : List DailyStat) (t : List DailyStat) (r : DailyStat),
    (∀ c ∈ C, dsKey c ≠ dsKey r) → dsSettled t r →
    dsSettled (C.foldl upsertDailyStat t) r := by
  intro C
  induction C with
  | nil => intro t r _ h; exact h
  | cons c C ih =>
    intro t r hne h
    rw [List.foldl_cons]
    exact ih _ r (fun c' hc' => hne c' (by simp [hc']))
      (dsSettled_upsert_other t r c (hne c (by simp)) h)

theorem dsSettled_after_foldl :
    ∀ (C : List DailyStat) (t : List DailyStat),
    (C.map dsKey).Nodup → ∀ r ∈ C, dsSettled (C.foldl upsertDailyStat t) r := by
  intro C
  induction C with
  | nil => intro t _ r hr; exact absurd hr (by simp)
  | cons c C ih =>
    intro t hnd r hr
    rw [List.map_cons, List.nodup_cons] at hnd
    rw [List.foldl_cons]
    rcases List.mem_cons.mp hr with rfl | hr'
    · refine dsSettled_foldl_preserve C _ r ?_ (dsSettled_upsert_self t r)
      intro c' hc' heq
      exact hnd.1 (heq ▸ List.mem_map.mpr ⟨c', hc', rfl⟩)
    · exact ih _ hnd.2 r hr'

theorem upsertDailyStat_of_settled (t : List DailyStat) (r : DailyStat)
    (h : dsSettled t r) : upsertDailyStat t r = t := by
  unfold upsertDailyStat
  rw [if_pos (List.any_eq_true.mpr ⟨r, h.2, decide_eq_true rfl⟩)]
  have : ∀ q ∈ t, (if dsKey q = dsKey r then r else q) = q := by
    intro q hq
    by_cases hk : dsKey q = dsKey r
    · rw [if_pos hk, h.1 q hq hk]
    · rw [if_neg hk]
  rw [List.map_congr_left this, List.map_id']

theorem foldl_upsertDailyStat_noop :
    ∀ (C : List DailyStat) (t : List DailyStat),
    (∀ r ∈ C, dsSettled t r) → C.foldl upsertDailyStat t = t := by
  intro C
  induction C with
  | nil => intro t _; rfl
  | cons c C ih =>
    intro t h
    rw [List.foldl_cons, upsertDailyStat_of_settled t c (h c (by simp))]
    exact ih t (fun r hr => h r (by simp [hr]))

theorem computeDailyRows_keys_nodup (today : String)
    (postAuthor commentAuthor : String → Option String)
    (mentions : List Mention) :
    ((computeDailyRows today postAuthor commentAuthor mentions).map dsKey).Nodup := by
  unfold computeDailyRows
  rw [List.map_map]
  have : ∀ x, (dsKey ∘ fun s =>
      ({ symbol := s, date := today,
         mention_count := ((mentions.filter (fun m => m.created_date == today)).filter
           (fun m => m.symbol == s)).length,
         post_mentions := (((mentions.filter (fun m => m.created_date == today)).filter
           (fun m => m.symbol == s)).filter (fun m => m.post_id.isSome)).length,
         comment_mentions := (((mentions.filter (fun m => m.created_date == today)).filter
           (fun m => m.symbol == s)).filter (fun m => m.comment_id.isSome)).length,
         unique_authors := (((mentions.filter (fun m => m.created_date == today)).filter
           (fun m => m.symbol == s)).filterMap
             (mentionAuthor postAuthor commentAuthor)).dedup.length } : DailyStat)) x
      = (x, today) := fun x => rfl
  rw [funext this]
  exact (List.nodup_dedup _).map (fun a b hab => congrArg Prod.fst hab)

theorem dsNoDupKey_upsert (t : List DailyStat) (r : DailyStat)
    (h : dsNoDupKey t) : dsNoDupKey (upsertDailyStat t r) := by
  unfold upsertDailyStat
  split
  · unfold dsNoDupKey at h ⊢
    rw [List.map_map]
    have : ∀ q ∈ t, (dsKey ∘ fun q => if dsKey q = dsKey r then r else q) q = dsKey q := by
      intro q hq
      by_cases hk : dsKey q = dsKey r
      · simp only [Function.comp]
        rw [if_pos hk, hk]
      · simp only [Function.comp]
        rw [if_neg hk]
    rw [List.map_congr_left this]
    exact h
  · rename_i hany
    unfold dsNoDupKey at h ⊢
    rw [List.map_append, List.nodup_append]
    refine ⟨h, by simp, ?_⟩
    intro p hp hq
    simp only [List.map_cons, List.map_nil, List.mem_singleton] at hq
    rcases List.mem_map.mp hp with ⟨q0, hq0, hpq⟩
    apply hany
    refine List.any_eq_true.mpr ⟨q0, hq0, decide_eq_true ?_⟩
    rw [hpq, hq]

theorem dsNoDupKey_foldl :
    ∀ (C : List DailyStat) (t : List DailyStat),
    dsNoDupKey t → dsNoDupKey (C.foldl upsertDailyStat t) := by
  intro C
  induction C with
  | nil => intro t h; exact h
  | cons c C ih =>
    intro t h
    rw [List.foldl_cons]
    exact ih _ (dsNoDupKey_upsert t c h)

/-- C5: `update_daily_stats` run twice against an unchanged mentions table
on the same date leaves `daily_stats` exactly as one run does — every
`(symbol, date)` row is overwritten with the recomputed counts, nothing is
incremented — and it preserves the one-row-per-`(symbol, date)` invariant. -/
theorem update_daily_stats_idempotent (today : String)
    (postAuthor commentAuthor : String → Option String)
    (mentions : List Mention) (stats : List DailyStat) :
    update_daily_stats today postAuthor commentAuthor mentions
        (update_daily_stats today postAuthor commentAuthor mentions stats) =
      update_daily_stats today postAuthor commentAuthor mentions stats ∧
    (dsNoDupKey stats →
      dsNoDupKey (update_daily_stats today postAuthor commentAuthor mentions stats)) := by
  constructor
  · unfold update_daily_stats
    apply foldl_upsertDailyStat_noop
    intro r hr
    exact dsSettled_after_foldl _ stats
      (computeDailyRows_keys_nodup today postAuthor commentAuthor mentions) r hr
  · intro h
    exact dsNoDupKey_foldl _ stats h

/-- Witness for C5 at a one-mention table and an initially empty
`daily_stats` table. -/
theorem update_daily_stats_idempotent_witness :
    update_daily_stats "2025-01-01" (fun _ => some "alice") (fun _ => none)
        [⟨"AAPL", some "p1", none, "2025-01-01"⟩]
        (update_daily_stats "2025-01-01" (fun _ => some "alice") (fun _ => none)
          [⟨"AAPL", some "p1", none, "2025-01-01"⟩] []) =
      update_daily_stats "2025-01-01" (fun _ => some "alice") (fun _ => none)
        [⟨"AAPL", some "p1", none, "2025-01-01"⟩] [] ∧
    dsNoDupKey (update_daily_stats "2025-01-01" (fun _ => some "alice") (fun _ => none)
      [⟨"AAPL", some "p1", none, "2025-01-01"⟩] []) :=
  ⟨(update_daily_stats_idempotent "2025-01-01" (fun _ => some "alice") (fun _ => none)
      [⟨"AAPL", some "p1", none, "2025-01-01"⟩] []).1,
   (update_daily_stats_idempotent "2025-01-01" (fun _ => some "alice") (fun _ => none)
      [⟨"AAPL", some "p1", none, "2025-01-01"⟩] []).2 (by simp [dsNoDupKey])⟩
